import Mathlib

/-!
# Verification of the random-nickname collision experiment

Shallow embedding of `src/main.cc`: a nickname generator built on a
length-bucketed word corpus, plus the Monte-Carlo collision experiment that
drives it.  C++ machine integers (`std::size_t`) are modelled as `Nat` with an
explicit modulus `U64 = 2 ^ 64` at the places where unsigned wrap-around is
observable (the corpus loader's `line.length() - 2` and the nickname loop's
`chance -= piece.length()`).  Characters are modelled by their ASCII codes
(`Nat`), strings by `List Nat`.  A random engine is modelled as an infinite
stream of raw draws `Nat → Nat`; `std::uniform_int_distribution<T>(lo, hi)(g)`
consumes one draw `x` and yields `lo + x % (hi - lo + 1)`, which lies in
`[lo, hi]` whenever `lo ≤ hi` (for `hi < lo` the C++ distribution's
precondition is violated and behaviour is undefined; the model then still
yields `lo`).
-/

/-- A word: list of ASCII codes (C++ `std::string`). -/
abbrev Word := List Nat

/-- `WordDB`: buckets of words indexed by length (C++
`std::vector<std::vector<std::string>>`). -/
abbrev WordDB := List (List Word)

/-- `2 ^ 64`, the modulus of C++ `std::size_t` on the target platform. -/
def U64 : Nat := 2 ^ 64

/-- `constexpr static auto MAX_NICKNAME_LEN = 12`. -/
def MAX_NICKNAME_LEN : Nat := 12

/-- `constexpr static auto NUM_INITIAL_NICKNAMES = 10'000'000`. -/
def NUM_INITIAL_NICKNAMES : Nat := 10000000

/-- `constexpr static auto NUM_TRIES = 50'000'000`. -/
def NUM_TRIES : Nat := 50000000

/-- A random engine stream: an infinite sequence of raw draws.  Both
`std::mt19937` and `std::mt19937_64` are abstracted by this; theorems
quantify over all streams. -/
abbrev Rng := Nat → Nat

/-- Advance the stream past one consumed draw. -/
def Rng.next (g : Rng) : Rng := fun n => g (n + 1)

/-- `std::uniform_int_distribution(lo, hi)(g)`: consume one raw draw and map
it into `[lo, hi]`. -/
def uniformInt (lo hi : Nat) (g : Rng) : Nat × Rng :=
  (lo + g 0 % (hi - lo + 1), g.next)

/-- Truncating subtraction of C++ unsigned 64-bit values (`a - b` with
wrap-around), for `b < U64`. -/
def wsub (a b : Nat) : Nat := (a + (U64 - b % U64)) % U64

/-- ASCII `std::tolower`, restricted to ASCII codes as in this program. -/
def tolower (c : Nat) : Nat := if 65 ≤ c ∧ c ≤ 90 then c + 32 else c

/-- ASCII `std::toupper`, restricted to ASCII codes as in this program. -/
def toupper (c : Nat) : Nat := if 97 ≤ c ∧ c ≤ 122 then c - 32 else c

/-- `sample_ascii`: uniform draw over the 62-symbol alphabet; codes `0..9`
map to digits, then capitals, then lower-case letters. -/
def sample_ascii (g : Rng) : Nat × Rng :=
  let (ch, g') := uniformInt 0 61 g
  if ch < 10 then (48 + ch, g')
  else
    let ch := ch - 10
    if ch ≤ 25 then (65 + ch, g') else (97 + (ch - 26), g')

/-- `sample_digit`: uniform draw over `'0'..'9'`. -/
def sample_digit (g : Rng) : Nat × Rng := uniformInt 48 57 g

/-- `sample_ascii_lower`: uniform draw over `'a'..'z'`. -/
def sample_ascii_lower (g : Rng) : Nat × Rng := uniformInt 97 122 g

/-- The wrapped bucket key `line.length() - 2` computed in `std::size_t`
arithmetic: lines shorter than 2 wrap around to astronomically large keys
and are therefore dropped by the `< db.size()` test. -/
def wrapKey (len : Nat) : Nat := (len + (U64 - 2)) % U64

/-- `load_word_db`, with the out-of-scope file iteration abstracted to the
list of lines it yields: strip one leading and one trailing character and
append the result to the bucket indexed by the stripped length, provided
`line.length() - 2 < db.size()` in wrapped `std::size_t` arithmetic. -/
def load_word_db (lines : List Word) : WordDB :=
  lines.foldl
    (fun db line =>
      if wrapKey line.length < db.length then
        db.set (wrapKey line.length)
          (db.getD (wrapKey line.length) [] ++ [(line.drop 1).take (wrapKey line.length)])
      else db)
    (List.replicate (MAX_NICKNAME_LEN + 1) [])

/-- Errors a sampling run can signal: `noWords` models the thrown
`std::runtime_error("there are no words to sample")`; `outOfFuel` is the
model's marker for a run of the C++ `while` loop longer than the fuel bound
(which the termination theorem rules out under the documented
preconditions). -/
inductive SampleError
  | noWords
  | outOfFuel
  deriving DecidableEq

/-- The bucket walk of `sample_word`:
`while (it->size() <= idx) idx -= (it++)->size(); return it->at(idx);`
running over the buckets from `min_len` onwards.  Falling off the end of the
bucket list (impossible for the in-range indices the caller draws) is C++
undefined behaviour, modelled as `none`. -/
def bucketWalk : List (List Word) → Nat → Option Word
  | [], _ => none
  | b :: bs, idx => if b.length ≤ idx then bucketWalk bs (idx - b.length) else b[idx]?

/-- The eligible buckets `min_len .. max_len` that `std::reduce` sums over:
`max_len - min_len + 1` buckets starting at `min_len`. -/
def eligible (db : WordDB) (minLen maxLen : Nat) : List (List Word) :=
  (db.drop minLen).take (maxLen - minLen + 1)

/-- `num_candidates`: total word count of the eligible buckets. -/
def num_candidates (db : WordDB) (minLen maxLen : Nat) : Nat :=
  ((eligible db minLen maxLen).map List.length).sum

/-- The eligible buckets flattened into one sequence, in bucket order.
This is the sampling population the specification describes. -/
def eligible_words (db : WordDB) (minLen maxLen : Nat) : List Word :=
  (eligible db minLen maxLen).flatten

/-- `sample_word`: draw a uniform index over the eligible population and
walk the buckets to it; throw (model: `.error .noWords`) when the eligible
population is empty. -/
def sample_word (g : Rng) (db : WordDB) (minLen maxLen : Nat) :
    Except SampleError (Word × Rng) :=
  if num_candidates db minLen maxLen = 0 then .error .noWords
  else
    let (idx, g') := uniformInt 0 (num_candidates db minLen maxLen - 1) g
    .ok ((bucketWalk (db.drop minLen) idx).getD [], g')

/-- The specification's description of `sample_word`: flatten the eligible
buckets into one sequence and return the element at one uniformly drawn
index.  Stated from the spec's words, to be compared with `sample_word`. -/
def sample_word_flat (g : Rng) (db : WordDB) (minLen maxLen : Nat) :
    Except SampleError (Word × Rng) :=
  if (eligible_words db minLen maxLen).length = 0 then .error .noWords
  else
    let (idx, g') := uniformInt 0 ((eligible_words db minLen maxLen).length - 1) g
    .ok ((eligible_words db minLen maxLen).getD idx [], g')

-- ---------------------------------------------------------------------------
-- Basic lemmas
-- ---------------------------------------------------------------------------

theorem uniformInt_fst_mem (lo hi : Nat) (g : Rng) (h : lo ≤ hi) :
    lo ≤ (uniformInt lo hi g).1 ∧ (uniformInt lo hi g).1 ≤ hi := by
  unfold uniformInt
  have hpos : 0 < hi - lo + 1 := Nat.succ_pos _
  have hmod : g 0 % (hi - lo + 1) ≤ hi - lo :=
    Nat.lt_succ_iff.mp (Nat.mod_lt _ hpos)
  constructor
  · exact Nat.le_add_right _ _
  · simp only
    omega

theorem wsub_eq_sub (a b : Nat) (hb : b ≤ a) (ha : a < U64) : wsub a b = a - b := by
  simp only [wsub, U64] at *
  have hbU : b % 2 ^ 64 = b := Nat.mod_eq_of_lt (lt_of_le_of_lt hb ha)
  rw [hbU]
  have h1 : a + (2 ^ 64 - b) = 2 ^ 64 + (a - b) := by omega
  rw [h1, Nat.add_mod_left]
  exact Nat.mod_eq_of_lt (by omega)

/-- `num_candidates` equals the length of the flattened eligible population. -/
theorem num_candidates_eq_length (db : WordDB) (minLen maxLen : Nat) :
    num_candidates db minLen maxLen = (eligible_words db minLen maxLen).length := by
  simp [num_candidates, eligible_words, List.length_flatten]

/-- The bucket walk agrees with indexing into the flattened prefix of the
bucket list, for every index below the prefix's total population. -/
theorem bucketWalk_eq_flatten_getElem? (bs : List (List Word)) (k i : Nat)
    (h : i < (((bs.take k).map List.length).sum)) :
    bucketWalk bs i = ((bs.take k).flatten)[i]? := by
  induction bs generalizing k i with
  | nil => simp at h
  | cons b bs ih =>
    cases k with
    | zero => simp at h
    | succ k =>
      simp only [List.take_succ_cons, List.map_cons, List.sum_cons] at h
      simp only [List.take_succ_cons, List.flatten_cons]
      unfold bucketWalk
      by_cases hb : b.length ≤ i
      · rw [if_pos hb, List.getElem?_append_right hb, ih k (i - b.length) (by omega)]
      · rw [if_neg hb, List.getElem?_append_left (by omega)]

/-- The corpus bucket invariant: every word stored in bucket `L` has length
exactly `L` (vacuous at indices past the end of the bucket list). -/
def BucketInv (db : WordDB) : Prop := ∀ L : Nat, ∀ w ∈ db.getD L [], w.length = L

theorem getD_eq_getElem_of_lt {α : Type} (l : List α) (i : Nat) (d : α)
    (h : i < l.length) : l.getD i d = l[i] := by
  rw [List.getD_eq_getElem?_getD, List.getElem?_eq_getElem h]; rfl

/-- On success, `sample_word` returns the word at the drawn index of the
flattened eligible population. -/
theorem sample_word_pos (g : Rng) (db : WordDB) (minLen maxLen : Nat)
    (h : 0 < num_candidates db minLen maxLen) :
    sample_word g db minLen maxLen =
      .ok ((eligible_words db minLen maxLen).getD
            (g 0 % num_candidates db minLen maxLen) [], g.next) := by
  have hne : ¬ num_candidates db minLen maxLen = 0 := by omega
  unfold sample_word
  rw [if_neg hne]
  unfold uniformInt
  have hidx : 0 + g 0 % (num_candidates db minLen maxLen - 1 - 0 + 1)
      = g 0 % num_candidates db minLen maxLen := by
    have : num_candidates db minLen maxLen - 1 - 0 + 1 = num_candidates db minLen maxLen := by
      omega
    rw [this]; omega
  simp only [hidx]
  have hlt : g 0 % num_candidates db minLen maxLen < num_candidates db minLen maxLen :=
    Nat.mod_lt _ h
  rw [bucketWalk_eq_flatten_getElem? _ (maxLen - minLen + 1) _
    (by simpa [num_candidates, eligible] using hlt)]
  rw [show ((db.drop minLen).take (maxLen - minLen + 1)).flatten
      = eligible_words db minLen maxLen from rfl]
  rw [List.getD_eq_getElem?_getD]

/-- A word returned by `sample_word` belongs to the eligible population. -/
theorem sample_word_ok_mem (g : Rng) (db : WordDB) (minLen maxLen : Nat)
    (w : Word) (g' : Rng) (h : sample_word g db minLen maxLen = .ok (w, g')) :
    w ∈ eligible_words db minLen maxLen := by
  by_cases h0 : num_candidates db minLen maxLen = 0
  · unfold sample_word at h
    rw [if_pos h0] at h
    exact absurd h (by simp)
  · rw [sample_word_pos g db minLen maxLen (by omega)] at h
    have hlt : g 0 % num_candidates db minLen maxLen
        < (eligible_words db minLen maxLen).length := by
      rw [← num_candidates_eq_length]
      exact Nat.mod_lt _ (by omega)
    have hw : w = (eligible_words db minLen maxLen).getD
        (g 0 % num_candidates db minLen maxLen) [] := by
      cases h; rfl
    rw [hw, getD_eq_getElem_of_lt _ _ _ hlt]
    exact List.getElem_mem hlt

/-- Under the bucket invariant, a word of the eligible population of
`sample_word db minLen maxLen` has length in `[minLen, maxLen]`. -/
theorem mem_eligible_words_length (db : WordDB) (minLen maxLen : Nat) (w : Word)
    (hinv : BucketInv db) (hle : minLen ≤ maxLen)
    (hw : w ∈ eligible_words db minLen maxLen) :
    minLen ≤ w.length ∧ w.length ≤ maxLen := by
  unfold eligible_words eligible at hw
  rw [List.mem_flatten] at hw
  obtain ⟨bkt, hbkt, hwb⟩ := hw
  rw [List.mem_iff_getElem] at hbkt
  obtain ⟨j, hj, hbj⟩ := hbkt
  have h1 : ((db.drop minLen).take (maxLen - minLen + 1)).length
      = min (maxLen - minLen + 1) (db.drop minLen).length := List.length_take ..
  have hjlen : j < (db.drop minLen).length := by omega
  have hjk : j < maxLen - minLen + 1 := by omega
  have hdb : minLen + j < db.length := by
    have := List.length_drop minLen db
    omega
  have hbval : bkt = db[minLen + j] := by
    rw [← hbj, List.getElem_take, List.getElem_drop]
  have hwlen : w.length = minLen + j := by
    have := hinv (minLen + j) w
    rw [getD_eq_getElem_of_lt _ _ _ hdb, ← hbval] at this
    exact this hwb
  omega

/-- C2 helper: the error case of `sample_word` is exactly the empty
population case. -/
theorem sample_word_error_iff (g : Rng) (db : WordDB) (minLen maxLen : Nat) :
    sample_word g db minLen maxLen = .error .noWords ↔
      num_candidates db minLen maxLen = 0 := by
  by_cases h0 : num_candidates db minLen maxLen = 0
  · unfold sample_word
    rw [if_pos h0]
    simp [h0]
  · rw [sample_word_pos g db minLen maxLen (by omega)]
    simp [h0]

/-- C2: `sample_word` signals the domain error exactly when the total number
of words in buckets `min_len..max_len` is zero; when that total is positive
it returns (the model is total, so it cannot loop forever) an eligible word
and no error. -/
theorem claim_C2 (g : Rng) (db : WordDB) (minLen maxLen : Nat) :
    (sample_word g db minLen maxLen = .error .noWords ↔
      num_candidates db minLen maxLen = 0) ∧
    (0 < num_candidates db minLen maxLen →
      ∃ w g', sample_word g db minLen maxLen = .ok (w, g') ∧
        w ∈ eligible_words db minLen maxLen) := by
  refine ⟨sample_word_error_iff g db minLen maxLen, fun h => ?_⟩
  exact ⟨_, _, sample_word_pos g db minLen maxLen h,
    sample_word_ok_mem _ _ _ _ _ _ (sample_word_pos g db minLen maxLen h)⟩

/-- C2 witness: on the two-bucket corpus with one word of length 1, the
eligible population of range `[0, 1]` is non-empty and a word is returned. -/
theorem claim_C2_witness :
    ∃ w g', sample_word (fun _ => 0) [[], [[97]]] 0 1 = .ok (w, g') ∧
      w ∈ eligible_words [[], [[97]]] 0 1 :=
  (claim_C2 (fun _ => 0) [[], [[97]]] 0 1).2 (by decide)

/-- C4: the subtraction walk of `sample_word` returns exactly the `i`-th
word of the concatenation of buckets `min_len..max_len` for every drawn
index `i < num_candidates`, and consequently `sample_word` coincides with
the spec's flatten-then-index description. -/
theorem claim_C4 (g : Rng) (db : WordDB) (minLen maxLen : Nat) :
    (∀ i, i < num_candidates db minLen maxLen →
      bucketWalk (db.drop minLen) i = (eligible_words db minLen maxLen)[i]?) ∧
    sample_word g db minLen maxLen = sample_word_flat g db minLen maxLen := by
  constructor
  · intro i hi
    exact bucketWalk_eq_flatten_getElem? (db.drop minLen) (maxLen - minLen + 1) i hi
  · have hlen := num_candidates_eq_length db minLen maxLen
    by_cases h0 : num_candidates db minLen maxLen = 0
    · unfold sample_word sample_word_flat
      rw [if_pos h0, if_pos (by omega)]
    · rw [sample_word_pos g db minLen maxLen (by omega)]
      unfold sample_word_flat
      rw [if_neg (by omega)]
      unfold uniformInt
      have hm : (eligible_words db minLen maxLen).length - 1 - 0 + 1
          = num_candidates db minLen maxLen := by omega
      simp only [hm, Nat.zero_add]

/-- C4 witness: on a concrete two-bucket corpus the walk hits the word of the
flattened population at index 0, and the two samplers agree. -/
theorem claim_C4_witness :
    bucketWalk (([[], [[97]]] : WordDB).drop 0) 0 = (eligible_words [[], [[97]]] 0 1)[0]? ∧
    sample_word (fun _ => 0) [[], [[97]]] 0 1 = sample_word_flat (fun _ => 0) [[], [[97]]] 0 1 :=
  ⟨(claim_C4 (fun _ => 0) [[], [[97]]] 0 1).1 0 (by decide),
   (claim_C4 (fun _ => 0) [[], [[97]]] 0 1).2⟩

-- ---------------------------------------------------------------------------
-- Mangling
-- ---------------------------------------------------------------------------

/-- ASCII digit codes. -/
def isDigitCode (c : Nat) : Prop := 48 ≤ c ∧ c ≤ 57

/-- ASCII capital letter codes. -/
def isUpperCode (c : Nat) : Prop := 65 ≤ c ∧ c ≤ 90

/-- ASCII lower-case letter codes. -/
def isLowerCode (c : Nat) : Prop := 97 ≤ c ∧ c ≤ 122

/-- Printable ASCII letters and digits, the 62-symbol alphabet
`{0-9, A-Z, a-z}`. -/
def isAlnumCode (c : Nat) : Prop := isDigitCode c ∨ isUpperCode c ∨ isLowerCode c

instance (c : Nat) : Decidable (isDigitCode c) := by unfold isDigitCode; infer_instance
instance (c : Nat) : Decidable (isUpperCode c) := by unfold isUpperCode; infer_instance
instance (c : Nat) : Decidable (isLowerCode c) := by unfold isLowerCode; infer_instance
instance (c : Nat) : Decidable (isAlnumCode c) := by unfold isAlnumCode; infer_instance

/-- The mutation count `static_cast<i32>(std::round(len / 2.7))` of
`sample_and_mangle_word`, with the system's fixed `mangling_factor = 2.7`,
computed exactly: `round(len / 2.7) = round(10 * len / 27)
= floor((20 * len + 27) / 54)`.  No length makes `10 * len / 27` a half-way
tie (that would force `27 ∣ len`, which makes `20 * len / 27` even), so
half-away-from-zero and half-up rounding agree, and for the word lengths
this program handles (at most 12) the `double` computation is exact. -/
def mangling_magnitude (len : Nat) : Nat := (20 * len + 27) / 54

/-- One run of the mangling `while` loop of `sample_and_mangle_word`:
swap the drawn cell of `indices` with the last cell, take the swapped-out
position, pop the last cell, and overwrite the word at that position
(lower-case letter at position 0, lower-folded alphanumeric elsewhere).
The C++ loop never runs with an empty `indices` vector (the count is at
most the word length); that branch is undefined behaviour, modelled as a
no-op. -/
def mangleStep : Nat → Rng → Word → List Nat → Word × Rng
  | 0, g, piece, _ => (piece, g)
  | _ + 1, g, piece, [] => (piece, g)
  | m + 1, g, piece, i0 :: idxs =>
    let indices := i0 :: idxs
    let draw := uniformInt 0 (indices.length - 1) g
    let j := draw.1
    let g1 := draw.2
    let chosen := indices.getD j 0
    let indices' := (indices.set j (indices.getLastD 0)).dropLast
    if chosen = 0 then
      let c := sample_ascii_lower g1
      mangleStep m c.2 (piece.set 0 c.1) indices'
    else
      let c := sample_ascii g1
      mangleStep m c.2 (piece.set chosen (tolower c.1)) indices'

/-- The mangling phase of `sample_and_mangle_word`: mutate
`round(len / 2.7)` positions drawn without replacement from `iota`-filled
`indices = [0, .., len)`. -/
def mangle (g : Rng) (piece : Word) : Word × Rng :=
  mangleStep (mangling_magnitude piece.length) g piece (List.range piece.length)

/-- `sample_and_mangle_word`: sample an eligible word, then mangle it. -/
def sample_and_mangle_word (g : Rng) (db : WordDB) (minLen maxLen : Nat) :
    Except SampleError (Word × Rng) :=
  match sample_word g db minLen maxLen with
  | .error e => .error e
  | .ok (piece, g') => .ok (mangle g' piece)

theorem mangling_magnitude_le (len : Nat) : mangling_magnitude len ≤ len := by
  unfold mangling_magnitude
  omega

theorem sample_ascii_lower_isLower (g : Rng) : isLowerCode (sample_ascii_lower g).1 := by
  have := uniformInt_fst_mem 97 122 g (by omega)
  exact this

theorem sample_ascii_isAlnum (g : Rng) : isAlnumCode (sample_ascii g).1 := by
  simp only [sample_ascii, uniformInt, isAlnumCode, isDigitCode, isUpperCode, isLowerCode]
  have h62 : g 0 % (61 - 0 + 1) < 62 := Nat.mod_lt _ (by omega)
  split
  · dsimp only
    omega
  · split <;> dsimp only <;> omega

theorem tolower_alnum (c : Nat) (h : isAlnumCode c) :
    isLowerCode (tolower c) ∨ isDigitCode (tolower c) := by
  simp only [isAlnumCode, isDigitCode, isUpperCode, isLowerCode, tolower] at h ⊢
  split <;> omega

theorem toupper_alnum (c : Nat) (h : isAlnumCode c) : isAlnumCode (toupper c) := by
  simp only [isAlnumCode, isDigitCode, isUpperCode, isLowerCode, toupper] at h ⊢
  split <;> omega

theorem getLastD_irrel {α : Type} (l : List α) (h : l ≠ []) (d d' : α) :
    l.getLastD d = l.getLastD d' := by
  cases l with
  | nil => exact absurd rfl h
  | cons a t => simp only [List.getLastD_cons]

theorem dropLast_append_getLastD {α : Type} (l : List α) (h : l ≠ []) (d : α) :
    l.dropLast ++ [l.getLastD d] = l := by
  have h1 : l.getLastD d = l.getLast h := by
    rw [List.getLastD_eq_getLast?, List.getLast?_eq_getLast l h]
    rfl
  rw [h1, List.dropLast_append_getLast h]

/-- The swap-with-last-and-pop step of the mangling loop is, as a multiset,
removal of the drawn cell. -/
theorem set_getLastD_dropLast_perm (l : List Nat) (j : Nat) (hj : j < l.length) :
    List.Perm ((l.set j (l.getLastD 0)).dropLast) (l.eraseIdx j) := by
  induction l generalizing j with
  | nil => simp at hj
  | cons a t ih =>
    cases j with
    | zero =>
      cases t with
      | nil => simp
      | cons b t' =>
        rw [List.getLastD_cons, List.set_cons_zero, List.dropLast_cons₂,
          List.eraseIdx_cons_zero]
        have h3 := dropLast_append_getLastD (b :: t') (by simp) a
        have h4 : List.Perm ((b :: t').getLastD a :: (b :: t').dropLast)
            ((b :: t').dropLast ++ [(b :: t').getLastD a]) :=
          (List.perm_append_singleton _ _).symm
        rw [h3] at h4
        exact h4
    | succ k =>
      have hk : k < t.length := by
        simp only [List.length_cons] at hj
        omega
      have ht : t ≠ [] := by
        intro hh
        rw [hh] at hk
        simp at hk
      rw [List.getLastD_cons, List.set_cons_succ, List.eraseIdx_cons_succ]
      have hne : t.set k (t.getLastD a) ≠ [] := by
        intro hh
        have := List.length_set t k (t.getLastD a)
        rw [hh] at this
        cases t
        · exact ht rfl
        · simp at this
      rw [List.dropLast_cons_of_ne_nil hne]
      apply List.Perm.cons
      rw [getLastD_irrel t ht a 0]
      exact ih k hk

theorem getElem_not_mem_eraseIdx (l : List Nat) (j : Nat) (hj : j < l.length)
    (hnd : l.Nodup) : l[j] ∉ l.eraseIdx j := by
  intro hmem
  rw [List.mem_iff_getElem] at hmem
  obtain ⟨i, hi, hval⟩ := hmem
  rw [List.getElem_eraseIdx] at hval
  split at hval
  · have := hnd.getElem_inj_iff.mp hval
    omega
  · have := hnd.getElem_inj_iff.mp hval
    omega

theorem getD_set_ne {α : Type} (l : List α) (i j : Nat) (x d : α) (h : i ≠ j) :
    (l.set i x).getD j d = l.getD j d := by
  rw [List.getD_eq_getElem?_getD, List.getD_eq_getElem?_getD, List.getElem?_set_ne h]

theorem getD_set_self {α : Type} (l : List α) (i : Nat) (x d : α) (h : i < l.length) :
    (l.set i x).getD i d = x := by
  rw [List.getD_eq_getElem?_getD, List.getElem?_set_self h]
  rfl

/-- Unfolding equation for one iteration of the mangling loop. -/
theorem mangleStep_succ_cons (m : Nat) (g : Rng) (piece : Word) (i0 : Nat)
    (idxs : List Nat) :
    mangleStep (m + 1) g piece (i0 :: idxs) =
      (if (i0 :: idxs).getD (uniformInt 0 ((i0 :: idxs).length - 1) g).1 0 = 0 then
        mangleStep m (sample_ascii_lower (uniformInt 0 ((i0 :: idxs).length - 1) g).2).2
          (piece.set 0 (sample_ascii_lower (uniformInt 0 ((i0 :: idxs).length - 1) g).2).1)
          (((i0 :: idxs).set (uniformInt 0 ((i0 :: idxs).length - 1) g).1
            ((i0 :: idxs).getLastD 0)).dropLast)
      else
        mangleStep m (sample_ascii (uniformInt 0 ((i0 :: idxs).length - 1) g).2).2
          (piece.set ((i0 :: idxs).getD (uniformInt 0 ((i0 :: idxs).length - 1) g).1 0)
            (tolower (sample_ascii (uniformInt 0 ((i0 :: idxs).length - 1) g).2).1))
          (((i0 :: idxs).set (uniformInt 0 ((i0 :: idxs).length - 1) g).1
            ((i0 :: idxs).getLastD 0)).dropLast)) := rfl

/-- Full characterisation of the mangling loop: with `m` mutations requested
over a duplicate-free index pool of size at least `m`, there is a
duplicate-free list `ps` of exactly `m` positions drawn from the pool such
that the output keeps the input's length, agrees with the input off `ps`,
and at each position of `ps` carries a lower-case letter (position 0) or a
lower-folded alphanumeric character (other positions). -/
theorem mangleStep_spec (m : Nat) :
    ∀ (g : Rng) (piece : Word) (indices : List Nat),
      indices.Nodup → m ≤ indices.length →
      ∃ ps : List Nat,
        ps.Nodup ∧ ps.length = m ∧ (∀ p ∈ ps, p ∈ indices) ∧
        (mangleStep m g piece indices).1.length = piece.length ∧
        (∀ j, j ∉ ps → (mangleStep m g piece indices).1.getD j 0 = piece.getD j 0) ∧
        (∀ p ∈ ps, p < piece.length →
          (p = 0 → isLowerCode ((mangleStep m g piece indices).1.getD p 0)) ∧
          (p ≠ 0 → isLowerCode ((mangleStep m g piece indices).1.getD p 0) ∨
            isDigitCode ((mangleStep m g piece indices).1.getD p 0))) := by
  induction m with
  | zero =>
    intro g piece indices hnd hm
    refine ⟨[], by simp, by simp, by simp, by simp [mangleStep], ?_, by simp⟩
    intro j hj
    simp [mangleStep]
  | succ m ih =>
    intro g piece indices hnd hm
    cases indices with
    | nil => simp at hm
    | cons i0 idxs =>
      rw [mangleStep_succ_cons]
      have hjlt : (uniformInt 0 ((i0 :: idxs).length - 1) g).1 < (i0 :: idxs).length := by
        have := uniformInt_fst_mem 0 ((i0 :: idxs).length - 1) g (by omega)
        have hpos : 0 < (i0 :: idxs).length := by simp
        omega
      set l : List Nat := i0 :: idxs with hl
      set j : Nat := (uniformInt 0 (l.length - 1) g).1 with hjdef
      set g1 : Rng := (uniformInt 0 (l.length - 1) g).2 with hg1def
      set chosen : Nat := l.getD j 0 with hchdef
      set indices' : List Nat := (l.set j (l.getLastD 0)).dropLast with hidef
      have hch_elem : chosen = l[j] := getD_eq_getElem_of_lt l j 0 hjlt
      have hperm := set_getLastD_dropLast_perm l j hjlt
      have hnd' : indices'.Nodup :=
        hperm.nodup_iff.mpr (hnd.sublist (List.eraseIdx_sublist l j))
      have hlen' : indices'.length = l.length - 1 := by
        rw [hidef]
        simp [List.length_dropLast, List.length_set]
      have hm' : m ≤ indices'.length := by
        have : m + 1 ≤ l.length := hm
        omega
      have hsub : ∀ p ∈ indices', p ∈ l := fun p hp =>
        (List.eraseIdx_sublist l j).subset (hperm.mem_iff.mp hp)
      have hch_not : chosen ∉ indices' := by
        rw [hch_elem]
        intro hc
        exact getElem_not_mem_eraseIdx l j hjlt hnd (hperm.mem_iff.mp hc)
      have hch_mem : chosen ∈ l := by
        rw [hch_elem]
        exact List.getElem_mem hjlt
      by_cases hzero : chosen = 0
      · rw [if_pos hzero]
        obtain ⟨ps', hnd'', hlen'', hmem'', hplen'', hoff'', hcls''⟩ :=
          ih (sample_ascii_lower g1).2 (piece.set 0 (sample_ascii_lower g1).1) indices' hnd' hm'
        have hchps : chosen ∉ ps' := fun hc => hch_not (hmem'' chosen hc)
        refine ⟨chosen :: ps', ?_, ?_, ?_, ?_, ?_, ?_⟩
        · exact List.nodup_cons.mpr ⟨hchps, hnd''⟩
        · simp [hlen'']
        · intro p hp
          rcases List.mem_cons.mp hp with rfl | hp'
          · exact hch_mem
          · exact hsub p (hmem'' p hp')
        · rw [hplen'', List.length_set]
        · intro j' hj'
          have hj1 : j' ∉ ps' := fun hc => hj' (List.mem_cons_of_mem _ hc)
          have hj2 : j' ≠ chosen := fun hc => hj' (hc ▸ List.mem_cons_self _ _)
          rw [hoff'' j' hj1, getD_set_ne piece 0 j' _ 0 (by omega)]
        · intro p hp hplen
          rcases List.mem_cons.mp hp with rfl | hp'
          · refine ⟨fun _ => ?_, fun hcon => absurd hzero hcon⟩
            rw [hoff'' chosen hchps, hzero, getD_set_self piece 0 _ 0 (by omega)]
            exact sample_ascii_lower_isLower g1
          · exact hcls'' p hp' (by rw [List.length_set]; exact hplen)
      · rw [if_neg hzero]
        obtain ⟨ps', hnd'', hlen'', hmem'', hplen'', hoff'', hcls''⟩ :=
          ih (sample_ascii g1).2 (piece.set chosen (tolower (sample_ascii g1).1)) indices'
            hnd' hm'
        have hchps : chosen ∉ ps' := fun hc => hch_not (hmem'' chosen hc)
        refine ⟨chosen :: ps', ?_, ?_, ?_, ?_, ?_, ?_⟩
        · exact List.nodup_cons.mpr ⟨hchps, hnd''⟩
        · simp [hlen'']
        · intro p hp
          rcases List.mem_cons.mp hp with rfl | hp'
          · exact hch_mem
          · exact hsub p (hmem'' p hp')
        · rw [hplen'', List.length_set]
        · intro j' hj'
          have hj1 : j' ∉ ps' := fun hc => hj' (List.mem_cons_of_mem _ hc)
          have hj2 : j' ≠ chosen := fun hc => hj' (hc ▸ List.mem_cons_self _ _)
          rw [hoff'' j' hj1, getD_set_ne piece chosen j' _ 0 (fun hc => hj2 hc.symm)]
        · intro p hp hplen
          rcases List.mem_cons.mp hp with rfl | hp'
          · refine ⟨fun hcon => absurd hcon hzero, fun _ => ?_⟩
            rw [hoff'' chosen hchps, getD_set_self piece chosen _ 0 hplen]
            exact tolower_alnum _ (sample_ascii_isAlnum g1)
          · exact hcls'' p hp' (by rw [List.length_set]; exact hplen)

theorem mangle_length (g : Rng) (w : Word) : (mangle g w).1.length = w.length := by
  simp only [mangle]
  obtain ⟨ps, _, _, _, hlen, _, _⟩ :=
    mangleStep_spec (mangling_magnitude w.length) g w (List.range w.length)
      (List.nodup_range _) (by rw [List.length_range]; exact mangling_magnitude_le _)
  exact hlen

theorem mangle_all_alnum (g : Rng) (w : Word) (h : ∀ c ∈ w, isAlnumCode c) :
    ∀ c ∈ (mangle g w).1, isAlnumCode c := by
  simp only [mangle]
  obtain ⟨ps, hnd, hlen, hmem, hplen, hoff, hcls⟩ :=
    mangleStep_spec (mangling_magnitude w.length) g w (List.range w.length)
      (List.nodup_range _) (by rw [List.length_range]; exact mangling_magnitude_le _)
  intro c hc
  rw [List.mem_iff_getElem] at hc
  obtain ⟨i, hi, hval⟩ := hc
  have hiw : i < w.length := by
    have := hplen
    omega
  have hgd : (mangleStep (mangling_magnitude w.length) g w
      (List.range w.length)).1.getD i 0 = c := by
    rw [getD_eq_getElem_of_lt _ _ _ hi]
    exact hval
  by_cases hip : i ∈ ps
  · have hcl := hcls i hip hiw
    by_cases hi0 : i = 0
    · have h1 := hcl.1 hi0
      rw [hgd] at h1
      exact Or.inr (Or.inr h1)
    · rcases hcl.2 hi0 with h1 | h1 <;> rw [hgd] at h1
      · exact Or.inr (Or.inr h1)
      · exact Or.inl h1
  · have h1 := hoff i hip
    rw [hgd, getD_eq_getElem_of_lt _ _ _ hiw] at h1
    rw [h1]
    exact h _ (List.getElem_mem hiw)

/-- C3: mangling keeps the word's length; it mutates exactly
`round(len / mangling_factor)` distinct positions, drawn without
replacement, never more positions than the word has; position 0 is
replaced by a lower-case letter and every other chosen position by a
character of the 62-symbol alphanumeric alphabet folded to lower case. -/
theorem claim_C3 (g : Rng) (w : Word) :
    (mangle g w).1.length = w.length ∧
    mangling_magnitude w.length ≤ w.length ∧
    ∃ ps : List Nat,
      ps.Nodup ∧ ps.length = mangling_magnitude w.length ∧
      (∀ p ∈ ps, p < w.length) ∧
      (∀ j, j ∉ ps → (mangle g w).1.getD j 0 = w.getD j 0) ∧
      (∀ p ∈ ps,
        (p = 0 → isLowerCode ((mangle g w).1.getD p 0)) ∧
        (p ≠ 0 → isLowerCode ((mangle g w).1.getD p 0) ∨
          isDigitCode ((mangle g w).1.getD p 0))) := by
  simp only [mangle]
  obtain ⟨ps, hnd, hlen, hmem, hplen, hoff, hcls⟩ :=
    mangleStep_spec (mangling_magnitude w.length) g w (List.range w.length)
      (List.nodup_range _) (by rw [List.length_range]; exact mangling_magnitude_le _)
  refine ⟨hplen, mangling_magnitude_le _, ps, hnd, hlen, ?_, hoff, ?_⟩
  · intro p hp
    exact List.mem_range.mp (hmem p hp)
  · intro p hp
    exact hcls p hp (List.mem_range.mp (hmem p hp))

-- ---------------------------------------------------------------------------
-- Corpus loading
-- ---------------------------------------------------------------------------

/-- The wrapped key hits bucket `L < 13` exactly for lines of length `L + 2`
(in particular, lines shorter than 2 wrap around past every bucket). -/
theorem wrapKey_eq_iff (L len : Nat) (hL : L < 13) (hlen : len < U64) :
    wrapKey len = L ↔ len = L + 2 := by
  simp only [wrapKey, U64] at *
  omega

theorem load_loop_length (lines : List Word) (db0 : WordDB) :
    (lines.foldl
      (fun db line =>
        if wrapKey line.length < db.length then
          db.set (wrapKey line.length)
            (db.getD (wrapKey line.length) [] ++ [(line.drop 1).take (wrapKey line.length)])
        else db)
      db0).length = db0.length := by
  induction lines generalizing db0 with
  | nil => rfl
  | cons line rest ih =>
    rw [List.foldl_cons, ih]
    by_cases h : wrapKey line.length < db0.length
    · rw [if_pos h, List.length_set]
    · rw [if_neg h]

theorem load_loop_bucket (lines : List Word) (db0 : WordDB)
    (hdb : db0.length = 13) (hlines : ∀ l ∈ lines, l.length < U64)
    (L : Nat) (hL : L < 13) :
    (lines.foldl
      (fun db line =>
        if wrapKey line.length < db.length then
          db.set (wrapKey line.length)
            (db.getD (wrapKey line.length) [] ++ [(line.drop 1).take (wrapKey line.length)])
        else db)
      db0).getD L []
    = db0.getD L [] ++ (lines.filter (fun l => l.length == L + 2)).map
        (fun l => (l.drop 1).take L) := by
  induction lines generalizing db0 with
  | nil => simp
  | cons line rest ih =>
    have hlen : line.length < U64 := hlines line (List.mem_cons_self _ _)
    have hrest : ∀ l ∈ rest, l.length < U64 := fun l hl =>
      hlines l (List.mem_cons_of_mem _ hl)
    rw [List.foldl_cons]
    by_cases hkey : wrapKey line.length < db0.length
    · rw [if_pos hkey]
      have hdb1 : (db0.set (wrapKey line.length)
          (db0.getD (wrapKey line.length) [] ++ [(line.drop 1).take (wrapKey line.length)])).length
          = 13 := by rw [List.length_set, hdb]
      rw [ih _ hdb1 hrest]
      by_cases hLkey : wrapKey line.length = L
      · have hll : line.length = L + 2 := (wrapKey_eq_iff L line.length hL hlen).mp hLkey
        rw [List.filter_cons, if_pos (by simp [hll]), List.map_cons]
        rw [hLkey, getD_set_self db0 L _ [] (by omega)]
        simp [List.append_assoc]
      · have hll : ¬ line.length = L + 2 := fun hc =>
          hLkey ((wrapKey_eq_iff L line.length hL hlen).mpr hc)
        rw [List.filter_cons, if_neg (by simp [hll])]
        rw [getD_set_ne db0 (wrapKey line.length) L _ [] hLkey]
    · rw [if_neg hkey]
      have hkk : ¬ line.length = L + 2 := by
        intro hc
        have : wrapKey line.length = L := (wrapKey_eq_iff L line.length hL hlen).mpr hc
        omega
      rw [ih _ hdb hrest, List.filter_cons, if_neg (by simp [hkk])]

/-- C8: the loader puts exactly the entries whose stripped length lies in
`[0, 12]` into the bucket of that stripped length (in input order), drops
every other entry (including lines shorter than 2, whose unsigned key wraps
around), and the resulting corpus satisfies the bucket invariant. -/
theorem claim_C8 (lines : List Word) (hlines : ∀ l ∈ lines, l.length < U64) :
    (load_word_db lines).length = MAX_NICKNAME_LEN + 1 ∧
    (∀ L, L < MAX_NICKNAME_LEN + 1 →
      (load_word_db lines).getD L []
        = (lines.filter (fun l => l.length == L + 2)).map (fun l => (l.drop 1).take L)) ∧
    BucketInv (load_word_db lines) := by
  have h13 : (MAX_NICKNAME_LEN + 1 : Nat) = 13 := by norm_num [MAX_NICKNAME_LEN]
  have hlength : (load_word_db lines).length = 13 := by
    unfold load_word_db
    rw [load_loop_length]
    simp [MAX_NICKNAME_LEN]
  have hbucket : ∀ L, L < 13 →
      (load_word_db lines).getD L []
        = (lines.filter (fun l => l.length == L + 2)).map (fun l => (l.drop 1).take L) := by
    intro L hL
    unfold load_word_db
    rw [load_loop_bucket lines _ (by simp [MAX_NICKNAME_LEN]) hlines L hL]
    have hrep : (List.replicate (MAX_NICKNAME_LEN + 1) ([] : List Word)).getD L [] = [] := by
      rw [List.getD_eq_getElem?_getD, List.getElem?_replicate]
      split <;> rfl
    rw [hrep, List.nil_append]
  have hinv : BucketInv (load_word_db lines) := by
    intro L w hw
    by_cases hL : L < 13
    · rw [hbucket L hL] at hw
      rw [List.mem_map] at hw
      obtain ⟨l, hl, rfl⟩ := hw
      rw [List.mem_filter] at hl
      have hlen2 : l.length = L + 2 := by simpa using hl.2
      rw [List.length_take, List.length_drop, hlen2]
      omega
    · have hnil : (load_word_db lines).getD L [] = [] := by
        apply List.getD_eq_default
        omega
      rw [hnil] at hw
      simp at hw
  exact ⟨by rw [h13]; exact hlength, fun L hL => hbucket L (by omega), hinv⟩

/-- C8 witness: the single quoted line `"a"` (codes `[34, 97, 34]`) lands,
stripped to `[97]`, in bucket 1, and the invariant holds. -/
theorem claim_C8_witness :
    (load_word_db [[34, 97, 34]]).length = MAX_NICKNAME_LEN + 1 ∧
    (load_word_db [[34, 97, 34]]).getD 1 []
      = ([[34, 97, 34]].filter (fun l => l.length == 1 + 2)).map (fun l => (l.drop 1).take 1) ∧
    BucketInv (load_word_db [[34, 97, 34]]) := by
  have h := claim_C8 [[34, 97, 34]] (by decide)
  exact ⟨h.1, h.2.1 1 (by norm_num [MAX_NICKNAME_LEN]), h.2.2⟩

-- ---------------------------------------------------------------------------
-- Nickname generation
-- ---------------------------------------------------------------------------

/-- `SampleNicknameOpt`: bounds on total nickname length and per-piece word
length. -/
structure SampleNicknameOpt where
  min_len : Nat
  max_len : Nat
  min_word_len : Nat
  max_word_len : Nat
  deriving DecidableEq

/-- `static auto const SAMPLE_NICKNAME_OPT = SampleNicknameOpt{8, 8, 3, 8}`. -/
def SAMPLE_NICKNAME_OPT : SampleNicknameOpt := ⟨8, 8, 3, 8⟩

/-- The `for (--chance; 0 < chance; --chance)` filler of the random-piece
branch: `n` draws from the 62-symbol alphabet. -/
def sampleAsciiN : Nat → Rng → Word × Rng
  | 0, g => ([], g)
  | n + 1, g =>
    let c := sample_ascii g
    let rest := sampleAsciiN n c.2
    (c.1 :: rest.1, rest.2)

/-- `piece[0] = toupper(piece[0])` on a C++ string; indexing an empty
string is undefined behaviour (never reached: sampled words are non-empty
under the bucket invariant), modelled as a no-op. -/
def capitalize : Word → Word
  | [] => []
  | c :: cs => toupper c :: cs

/-- The piece-building `while (0 < chance)` loop of `sample_nickname`.  The
C++ loop is unbounded; the model adds a fuel parameter, and the callers pass
`fuel = chance`, which the termination theorem shows is never exhausted
under the documented preconditions (each word-derived piece consumes at
least one unit of the remaining budget, a random filler piece consumes all
of it).  The budget subtraction `chance -= piece.length()` is the wrapped
`std::size_t` subtraction `wsub`. -/
def nicknameLoop (db : WordDB) (opt : SampleNicknameOpt) :
    Nat → Nat → Rng → List Word → Except SampleError (List Word × Rng)
  | 0, chance, g, pieces =>
    if chance = 0 then .ok (pieces, g) else .error .outOfFuel
  | fuel + 1, chance, g, pieces =>
    if chance = 0 then .ok (pieces, g)
    else if chance < opt.min_word_len then
      let c := sample_ascii_lower g
      let rest := sampleAsciiN (chance - 1) c.2
      nicknameLoop db opt fuel 0 rest.2 (pieces ++ [c.1 :: rest.1])
    else
      match sample_and_mangle_word g db opt.min_word_len (min opt.max_word_len chance) with
      | .error e => .error e
      | .ok pr =>
        nicknameLoop db opt fuel (wsub chance pr.1.length) pr.2
          (pieces ++ [capitalize pr.1])

/-- Fisher-Yates-style driver of `std::shuffle` (whose exact sequence of
draws is implementation-defined): repeatedly draw a uniform index over the
remaining elements, output that element, and continue on the rest.  Only
the facts that it permutes its input and consumes the engine are used. -/
def shuffleGo : Nat → Rng → List Word → List Word × Rng
  | 0, g, _ => ([], g)
  | n + 1, g, l =>
    let d := uniformInt 0 (l.length - 1) g
    let rest := shuffleGo n d.2 (l.eraseIdx d.1)
    (l.getD d.1 [] :: rest.1, rest.2)

/-- `std::shuffle(begin(pieces), end(pieces), random_engine)`. -/
def shuffle (g : Rng) (l : List Word) : List Word × Rng := shuffleGo l.length g l

/-- `sample_nickname`: draw the target length, build pieces until the budget
is exhausted, shuffle the pieces, and concatenate them. -/
def sample_nickname (g : Rng) (db : WordDB) (opt : SampleNicknameOpt) :
    Except SampleError (Word × Rng) :=
  let d := uniformInt opt.min_len opt.max_len g
  match nicknameLoop db opt d.1 d.1 d.2 [] with
  | .error e => .error e
  | .ok pr =>
    let s := shuffle pr.2 pr.1
    .ok (s.1.flatten, s.2)

/-- The nickname returned by `sample_nickname`, forgetting the engine
state (`none` when an error propagates). -/
def nickname_result (g : Rng) (db : WordDB) (opt : SampleNicknameOpt) : Option Word :=
  match sample_nickname g db opt with
  | .ok pr => some pr.1
  | .error _ => none

theorem sampleAsciiN_length (n : Nat) (g : Rng) : (sampleAsciiN n g).1.length = n := by
  induction n generalizing g with
  | zero => rfl
  | succ n ih => simp [sampleAsciiN, ih]

theorem sampleAsciiN_all_alnum (n : Nat) (g : Rng) :
    ∀ c ∈ (sampleAsciiN n g).1, isAlnumCode c := by
  induction n generalizing g with
  | zero => simp [sampleAsciiN]
  | succ n ih =>
    intro c hc
    simp only [sampleAsciiN] at hc
    rcases List.mem_cons.mp hc with rfl | hct
    · exact sample_ascii_isAlnum g
    · exact ih _ c hct

theorem capitalize_length (w : Word) : (capitalize w).length = w.length := by
  cases w <;> rfl

theorem capitalize_all_alnum (w : Word) (h : ∀ c ∈ w, isAlnumCode c) :
    ∀ c ∈ capitalize w, isAlnumCode c := by
  cases w with
  | nil => simp [capitalize]
  | cons a t =>
    intro c hc
    rcases List.mem_cons.mp hc with rfl | hct
    · exact toupper_alnum a (h a (List.mem_cons_self _ _))
    · exact h c (List.mem_cons_of_mem _ hct)

theorem perm_getElem_cons_eraseIdx {α : Type} (l : List α) (j : Nat) (hj : j < l.length) :
    List.Perm l (l[j] :: l.eraseIdx j) := by
  induction l generalizing j with
  | nil => simp at hj
  | cons a t ih =>
    cases j with
    | zero => simp
    | succ k =>
      have hk : k < t.length := by
        simp only [List.length_cons] at hj
        omega
      rw [List.eraseIdx_cons_succ]
      exact ((ih k hk).cons a).trans (List.Perm.swap _ _ _)

theorem shuffleGo_perm (n : Nat) :
    ∀ (g : Rng) (l : List Word), l.length = n → List.Perm (shuffleGo n g l).1 l := by
  induction n with
  | zero =>
    intro g l hl
    rw [List.length_eq_zero] at hl
    subst hl
    exact List.Perm.refl _
  | succ n ih =>
    intro g l hl
    have hj : (uniformInt 0 (l.length - 1) g).1 < l.length := by
      have := uniformInt_fst_mem 0 (l.length - 1) g (by omega)
      omega
    have herase : (l.eraseIdx (uniformInt 0 (l.length - 1) g).1).length = n := by
      rw [List.length_eraseIdx, if_pos hj]
      omega
    simp only [shuffleGo]
    have hperm := ih (uniformInt 0 (l.length - 1) g).2
      (l.eraseIdx (uniformInt 0 (l.length - 1) g).1) herase
    rw [getD_eq_getElem_of_lt l _ [] hj]
    exact ((hperm.cons _).trans (perm_getElem_cons_eraseIdx l _ hj).symm)

theorem shuffle_perm (g : Rng) (l : List Word) : List.Perm (shuffle g l).1 l :=
  shuffleGo_perm l.length g l rfl

theorem sample_word_error_eq (g : Rng) (db : WordDB) (a b : Nat) (e : SampleError)
    (h : sample_word g db a b = .error e) : e = .noWords := by
  by_cases h0 : num_candidates db a b = 0
  · unfold sample_word at h
    rw [if_pos h0] at h
    cases h
    rfl
  · rw [sample_word_pos g db a b (by omega)] at h
    simp at h

theorem sample_and_mangle_ok (g : Rng) (db : WordDB) (a b : Nat) (pr : Word × Rng)
    (h : sample_and_mangle_word g db a b = .ok pr) :
    ∃ w g1, sample_word g db a b = .ok (w, g1) ∧ pr = mangle g1 w := by
  unfold sample_and_mangle_word at h
  cases hsw : sample_word g db a b with
  | error e =>
    rw [hsw] at h
    simp at h
  | ok p =>
    obtain ⟨w, g1⟩ := p
    rw [hsw] at h
    simp only [Except.ok.injEq] at h
    exact ⟨w, g1, rfl, h.symm⟩

theorem sample_and_mangle_error_eq (g : Rng) (db : WordDB) (a b : Nat) (e : SampleError)
    (h : sample_and_mangle_word g db a b = .error e) : e = .noWords := by
  unfold sample_and_mangle_word at h
  cases hsw : sample_word g db a b with
  | error e' =>
    rw [hsw] at h
    cases h
    exact sample_word_error_eq g db a b _ hsw
  | ok p =>
    obtain ⟨w, g1⟩ := p
    rw [hsw] at h
    simp at h

theorem sample_and_mangle_ok_facts (g : Rng) (db : WordDB) (a b : Nat) (pr : Word × Rng)
    (hinv : BucketInv db) (hab : a ≤ b)
    (h : sample_and_mangle_word g db a b = .ok pr) :
    a ≤ pr.1.length ∧ pr.1.length ≤ b := by
  obtain ⟨w, g1, hsw, rfl⟩ := sample_and_mangle_ok g db a b pr h
  have hm := sample_word_ok_mem g db a b w g1 hsw
  have hwl := mem_eligible_words_length db a b w hinv hab hm
  rw [mangle_length]
  exact hwl

theorem sample_and_mangle_ok_alnum (g : Rng) (db : WordDB) (a b : Nat) (pr : Word × Rng)
    (hdb : ∀ bkt ∈ db, ∀ w ∈ bkt, ∀ c ∈ w, isAlnumCode c)
    (h : sample_and_mangle_word g db a b = .ok pr) :
    ∀ c ∈ pr.1, isAlnumCode c := by
  obtain ⟨w, g1, hsw, rfl⟩ := sample_and_mangle_ok g db a b pr h
  apply mangle_all_alnum
  have hm := sample_word_ok_mem g db a b w g1 hsw
  unfold eligible_words eligible at hm
  rw [List.mem_flatten] at hm
  obtain ⟨bkt, hbkt, hwb⟩ := hm
  have hbdb : bkt ∈ db :=
    (List.drop_sublist a db).subset ((List.take_sublist _ _).subset hbkt)
  exact hdb bkt hbdb w hwb

/-- Main invariant of the piece-building loop: with fuel at least the
remaining budget, the loop never exhausts its fuel (each iteration consumes
at least one unit of budget), and on normal return the total length of the
accumulated pieces has grown by exactly the budget. -/
theorem nicknameLoop_spec (db : WordDB) (opt : SampleNicknameOpt)
    (hinv : BucketInv db) (h1 : 1 ≤ opt.min_word_len)
    (h2 : opt.min_word_len ≤ opt.max_word_len) :
    ∀ (fuel chance : Nat) (g : Rng) (pieces : List Word),
      chance ≤ fuel → chance < U64 →
      nicknameLoop db opt fuel chance g pieces ≠ .error .outOfFuel ∧
      (∀ ps g', nicknameLoop db opt fuel chance g pieces = .ok (ps, g') →
        (ps.map List.length).sum = (pieces.map List.length).sum + chance) := by
  intro fuel
  induction fuel with
  | zero =>
    intro chance g pieces hcf hcU
    have hc0 : chance = 0 := by omega
    subst hc0
    constructor
    · intro hcon
      simp [nicknameLoop] at hcon
    · intro ps g' h
      simp only [nicknameLoop, if_pos] at h
      simp only [Except.ok.injEq, Prod.mk.injEq] at h
      rw [← h.1]
      simp
  | succ fuel ih =>
    intro chance g pieces hcf hcU
    by_cases hc0 : chance = 0
    · subst hc0
      constructor
      · intro hcon
        simp [nicknameLoop] at hcon
      · intro ps g' h
        simp only [nicknameLoop, if_pos] at h
        simp only [Except.ok.injEq, Prod.mk.injEq] at h
        rw [← h.1]
        simp
    · have hU0 : (0 : Nat) < U64 := by norm_num [U64]
      simp only [nicknameLoop, if_neg hc0]
      by_cases hcw : chance < opt.min_word_len
      · rw [if_pos hcw]
        have hrec := ih 0 ((sampleAsciiN (chance - 1) (sample_ascii_lower g).2).2)
          (pieces ++ [(sample_ascii_lower g).1 ::
            (sampleAsciiN (chance - 1) (sample_ascii_lower g).2).1])
          (by omega) hU0
        constructor
        · exact hrec.1
        · intro ps g' h
          have hsum := hrec.2 ps g' h
          rw [hsum]
          simp [List.map_append, List.sum_append, sampleAsciiN_length]
          omega
      · rw [if_neg hcw]
        cases hsm : sample_and_mangle_word g db opt.min_word_len (min opt.max_word_len chance) with
        | error e =>
          have he := sample_and_mangle_error_eq _ _ _ _ _ hsm
          subst he
          constructor
          · simp
          · intro ps g' h
            simp at h
        | ok pr =>
          dsimp only
          have hab : opt.min_word_len ≤ min opt.max_word_len chance := le_min h2 (by omega)
          have hlen := sample_and_mangle_ok_facts g db _ _ pr hinv hab hsm
          have hple : pr.1.length ≤ chance := le_trans hlen.2 (min_le_right _ _)
          have hp1 : 1 ≤ pr.1.length := le_trans h1 hlen.1
          have hwsub : wsub chance pr.1.length = chance - pr.1.length :=
            wsub_eq_sub chance pr.1.length hple hcU
          rw [hwsub]
          have hrec := ih (chance - pr.1.length) pr.2 (pieces ++ [capitalize pr.1])
            (by omega) (by omega)
          constructor
          · exact hrec.1
          · intro ps g' h
            have hsum := hrec.2 ps g' h
            rw [hsum]
            simp [List.map_append, List.sum_append, capitalize_length]
            omega

/-- Every piece the loop accumulates consists of alphanumeric characters,
provided the corpus contains only alphanumeric characters. -/
theorem nicknameLoop_alnum (db : WordDB) (opt : SampleNicknameOpt)
    (hdb : ∀ bkt ∈ db, ∀ w ∈ bkt, ∀ c ∈ w, isAlnumCode c) :
    ∀ (fuel chance : Nat) (g : Rng) (pieces : List Word),
      (∀ p ∈ pieces, ∀ c ∈ p, isAlnumCode c) →
      ∀ ps g', nicknameLoop db opt fuel chance g pieces = .ok (ps, g') →
        ∀ p ∈ ps, ∀ c ∈ p, isAlnumCode c := by
  intro fuel
  induction fuel with
  | zero =>
    intro chance g pieces hp ps g' h
    by_cases hc0 : chance = 0
    · subst hc0
      simp only [nicknameLoop, if_pos] at h
      simp only [Except.ok.injEq, Prod.mk.injEq] at h
      rw [← h.1]
      exact hp
    · simp only [nicknameLoop, if_neg hc0] at h
      simp at h
  | succ fuel ih =>
    intro chance g pieces hp ps g' h
    by_cases hc0 : chance = 0
    · subst hc0
      simp only [nicknameLoop, if_pos] at h
      simp only [Except.ok.injEq, Prod.mk.injEq] at h
      rw [← h.1]
      exact hp
    · simp only [nicknameLoop, if_neg hc0] at h
      by_cases hcw : chance < opt.min_word_len
      · rw [if_pos hcw] at h
        refine ih 0 _ _ ?_ ps g' h
        intro p hpm
        rcases List.mem_append.mp hpm with hpl | hpr
        · exact hp p hpl
        · have hpe := List.mem_singleton.mp hpr
          rw [hpe]
          intro c hc
          rcases List.mem_cons.mp hc with rfl | hct
          · exact Or.inr (Or.inr (sample_ascii_lower_isLower _))
          · exact sampleAsciiN_all_alnum _ _ c hct
      · rw [if_neg hcw] at h
        cases hsm : sample_and_mangle_word g db opt.min_word_len (min opt.max_word_len chance) with
        | error e =>
          rw [hsm] at h
          simp at h
        | ok pr =>
          rw [hsm] at h
          refine ih _ _ _ ?_ ps g' h
          intro p hpm
          rcases List.mem_append.mp hpm with hpl | hpr
          · exact hp p hpl
          · have hpe := List.mem_singleton.mp hpr
            rw [hpe]
            exact capitalize_all_alnum _ (sample_and_mangle_ok_alnum g db _ _ pr hdb hsm)

/-- A corpus whose buckets exist only up to `db.length` satisfies the
invariant as soon as the in-range buckets do (out-of-range buckets are
empty by `getD`). -/
theorem BucketInv_of_forall_lt (db : WordDB)
    (h : ∀ L, L < db.length → ∀ w ∈ db.getD L [], w.length = L) : BucketInv db := by
  intro L w hw
  by_cases hL : L < db.length
  · exact h L hL w hw
  · rw [List.getD_eq_default _ _ (by omega)] at hw
    simp at hw

/-- Top-level run of `sample_nickname`: under the preconditions the fuel
bound is never hit, and a returned nickname's length is the drawn target
length, hence within `[min_len, max_len]`. -/
theorem sample_nickname_run (g : Rng) (db : WordDB) (opt : SampleNicknameOpt)
    (hinv : BucketInv db) (h1 : 1 ≤ opt.min_word_len)
    (h2 : opt.min_word_len ≤ opt.max_word_len)
    (h3 : opt.min_len ≤ opt.max_len) (h4 : opt.max_len < U64) :
    sample_nickname g db opt ≠ .error .outOfFuel ∧
    (∀ nick g', sample_nickname g db opt = .ok (nick, g') →
      opt.min_len ≤ nick.length ∧ nick.length ≤ opt.max_len) := by
  have hc := uniformInt_fst_mem opt.min_len opt.max_len g h3
  have hspec := nicknameLoop_spec db opt hinv h1 h2
    (uniformInt opt.min_len opt.max_len g).1 (uniformInt opt.min_len opt.max_len g).1
    (uniformInt opt.min_len opt.max_len g).2 [] (le_refl _) (by omega)
  cases hres : nicknameLoop db opt (uniformInt opt.min_len opt.max_len g).1
      (uniformInt opt.min_len opt.max_len g).1 (uniformInt opt.min_len opt.max_len g).2 [] with
  | error e =>
    have he : e ≠ .outOfFuel := fun hk => hspec.1 (hk ▸ hres)
    constructor
    · intro hk
      simp only [sample_nickname] at hk
      rw [hres] at hk
      simp at hk
      exact he hk
    · intro nick g' hok
      simp only [sample_nickname] at hok
      rw [hres] at hok
      simp at hok
  | ok pr =>
    have hsum := hspec.2 pr.1 pr.2 (by rw [hres])
    constructor
    · intro hk
      simp only [sample_nickname] at hk
      rw [hres] at hk
      simp at hk
    · intro nick g' hok
      simp only [sample_nickname] at hok
      rw [hres] at hok
      simp only [Except.ok.injEq, Prod.mk.injEq] at hok
      have hn : nick = (shuffle pr.2 pr.1).1.flatten := hok.1.symm
      have hperm := shuffle_perm pr.2 pr.1
      have hlen : nick.length = (uniformInt opt.min_len opt.max_len g).1 := by
        rw [hn, List.length_flatten, (hperm.map List.length).sum_eq, hsum]
        simp
      omega

/-- C10: under the preconditions `1 ≤ min_word_len ≤ max_word_len`,
`min_len ≤ max_len < 2^64` and the bucket invariant, `sample_nickname`
never exhausts the loop's fuel bound: it returns a nickname or propagates
the domain error of `sample_word`. -/
theorem claim_C10 (g : Rng) (db : WordDB) (opt : SampleNicknameOpt)
    (hinv : BucketInv db) (h1 : 1 ≤ opt.min_word_len)
    (h2 : opt.min_word_len ≤ opt.max_word_len)
    (h3 : opt.min_len ≤ opt.max_len) (h4 : opt.max_len < U64) :
    sample_nickname g db opt ≠ .error .outOfFuel ∧
    (sample_nickname g db opt = .error .noWords ∨
      ∃ pr, sample_nickname g db opt = .ok pr) := by
  have hrun := sample_nickname_run g db opt hinv h1 h2 h3 h4
  refine ⟨hrun.1, ?_⟩
  cases hres : sample_nickname g db opt with
  | error e =>
    cases e with
    | noWords => exact Or.inl rfl
    | outOfFuel => exact absurd hres hrun.1
  | ok pr => exact Or.inr ⟨pr, rfl⟩

/-- Fixture: the all-zeroes engine stream. -/
def zeroRng : Rng := fun _ => 0

/-- Fixture: a corpus holding the single 8-letter word `aaaaaaaa` in
bucket 8 (and satisfying the bucket invariant). -/
def dbA : WordDB := [[], [], [], [], [], [], [], [], [List.replicate 8 97]]

/-- C10 witness: on the concrete fixture corpus the run returns a nickname. -/
theorem claim_C10_witness :
    sample_nickname zeroRng dbA SAMPLE_NICKNAME_OPT ≠ .error .outOfFuel ∧
    (sample_nickname zeroRng dbA SAMPLE_NICKNAME_OPT = .error .noWords ∨
      ∃ pr, sample_nickname zeroRng dbA SAMPLE_NICKNAME_OPT = .ok pr) :=
  claim_C10 zeroRng dbA SAMPLE_NICKNAME_OPT
    (BucketInv_of_forall_lt dbA (by decide)) (by decide) (by decide) (by decide)
    (by norm_num [SAMPLE_NICKNAME_OPT, U64])

/-- C1: a returned nickname's length lies in `[opt.min_len, opt.max_len]`;
with the system's fixed options `{8, 8, 3, 8}` it is exactly 8. -/
theorem claim_C1 (g : Rng) (db : WordDB) (opt : SampleNicknameOpt) (nick : Word)
    (hinv : BucketInv db) (h1 : 1 ≤ opt.min_word_len)
    (h2 : opt.min_word_len ≤ opt.max_word_len)
    (h3 : opt.min_len ≤ opt.max_len) (h4 : opt.max_len < U64)
    (hok : nickname_result g db opt = some nick) :
    (opt.min_len ≤ nick.length ∧ nick.length ≤ opt.max_len) ∧
    (opt = SAMPLE_NICKNAME_OPT → nick.length = 8) := by
  have hrun := sample_nickname_run g db opt hinv h1 h2 h3 h4
  unfold nickname_result at hok
  cases hres : sample_nickname g db opt with
  | error e =>
    rw [hres] at hok
    simp at hok
  | ok pr =>
    rw [hres] at hok
    simp only [Option.some.injEq] at hok
    have hb := hrun.2 pr.1 pr.2 (by rw [hres])
    rw [hok] at hb
    refine ⟨hb, ?_⟩
    intro heq
    subst heq
    have e1 : SAMPLE_NICKNAME_OPT.min_len = 8 := rfl
    have e2 : SAMPLE_NICKNAME_OPT.max_len = 8 := rfl
    omega

/-- C1 witness: the fixture run returns the 8-character nickname
`Aaaaaa00`. -/
theorem claim_C1_witness :
    (SAMPLE_NICKNAME_OPT.min_len ≤ ([65, 97, 97, 97, 97, 97, 48, 48] : Word).length ∧
      ([65, 97, 97, 97, 97, 97, 48, 48] : Word).length ≤ SAMPLE_NICKNAME_OPT.max_len) ∧
    (SAMPLE_NICKNAME_OPT = SAMPLE_NICKNAME_OPT →
      ([65, 97, 97, 97, 97, 97, 48, 48] : Word).length = 8) :=
  claim_C1 zeroRng dbA SAMPLE_NICKNAME_OPT [65, 97, 97, 97, 97, 97, 48, 48]
    (BucketInv_of_forall_lt dbA (by decide)) (by decide) (by decide) (by decide)
    (by norm_num [SAMPLE_NICKNAME_OPT, U64]) (by decide)

/-- C9 (amended): for every corpus all of whose words consist of
printable ASCII letters and digits (as the packaged word list does) and
every engine stream, every character of a returned nickname is a printable
ASCII letter or digit.  (As stated over arbitrary corpora the claim is
false: corpus characters survive mangling unchanged, see the
counterexample.) -/
theorem claim_C9 (g : Rng) (db : WordDB) (opt : SampleNicknameOpt) (nick : Word)
    (hdb : ∀ bkt ∈ db, ∀ w ∈ bkt, ∀ c ∈ w, isAlnumCode c)
    (hok : nickname_result g db opt = some nick) :
    ∀ c ∈ nick, isAlnumCode c := by
  unfold nickname_result at hok
  cases hres : sample_nickname g db opt with
  | error e =>
    rw [hres] at hok
    simp at hok
  | ok pr =>
    rw [hres] at hok
    simp only [Option.some.injEq] at hok
    rw [← hok]
    simp only [sample_nickname] at hres
    cases hloop : nicknameLoop db opt (uniformInt opt.min_len opt.max_len g).1
        (uniformInt opt.min_len opt.max_len g).1 (uniformInt opt.min_len opt.max_len g).2 [] with
    | error e =>
      rw [hloop] at hres
      simp at hres
    | ok pr2 =>
      rw [hloop] at hres
      simp only [Except.ok.injEq, Prod.mk.injEq] at hres
      have hall := nicknameLoop_alnum db opt hdb _ _ _ [] (by simp) pr2.1 pr2.2 (by rw [hloop])
      intro c hc
      have hres1 : (shuffle pr2.2 pr2.1).1.flatten = pr.1 := by rw [← hres]
      rw [← hres1] at hc
      rw [List.mem_flatten] at hc
      obtain ⟨p, hp, hcp⟩ := hc
      have hpmem : p ∈ pr2.1 := (shuffle_perm pr2.2 pr2.1).mem_iff.mp hp
      exact hall p hpmem c hcp

/-- Fixture: a corpus whose single word is eight `'!'` characters (code 33).
It even satisfies the bucket invariant, yet its characters are not
alphanumeric. -/
def dbBang : WordDB := [[], [], [], [], [], [], [], [], [List.replicate 8 33]]

/-- C9 counterexample: on the `'!'`-word corpus the run returns the
nickname `A!!!!!00`, whose characters are not all ASCII letters/digits —
so the claim is false for arbitrary corpora. -/
theorem claim_C9_counterexample :
    nickname_result zeroRng dbBang SAMPLE_NICKNAME_OPT
      = some [65, 33, 33, 33, 33, 33, 48, 48] ∧
    ¬ (∀ c ∈ ([65, 33, 33, 33, 33, 33, 48, 48] : Word), isAlnumCode c) := by
  constructor
  · decide
  · decide

/-- C9 witness: on the all-`a` fixture corpus the returned nickname is
`Aaaaaa00`; its leading character (code 65, `A`) is alphanumeric. -/
theorem claim_C9_witness : isAlnumCode 65 :=
  claim_C9 zeroRng dbA SAMPLE_NICKNAME_OPT [65, 97, 97, 97, 97, 97, 48, 48]
    (by decide) (by decide) 65 (by decide)

-- ---------------------------------------------------------------------------
-- Collision experiments
-- ---------------------------------------------------------------------------

/-- `{total_trials, collision_count, collision_percentage}`; the C++
`double` percentage is modelled as an exact rational. -/
abbrev ExperimentResult := Nat × Nat × ℚ

/-- The population loop shared by all four experiment variants:
`while (nickname_db.size() < target) nickname_db.emplace(next_nickname())`,
parameterised by the engine-lifecycle capability `step` (spec §9).  The C++
loop is unbounded; the model's fuel exhaustion and a propagated sampling
exception are both `none` (no result is produced in either case). -/
def populate {σ : Type} (step : σ → Except SampleError (Word × σ))
    (target : Nat) : Nat → σ → Finset Word → Option (Finset Word × σ)
  | 0, st, s => if s.card < target then none else some (s, st)
  | fuel + 1, st, s =>
    if s.card < target then
      match step st with
      | .error _ => none
      | .ok pr => populate step target fuel pr.2 (insert pr.1 s)
    else some (s, st)

/-- The trial loop shared by all four experiment variants: `n` further
draws, each only tested for membership (`contains`) — the set is threaded
through unchanged — incrementing the collision counter on each hit. -/
def run_trials {σ : Type} (step : σ → Except SampleError (Word × σ)) :
    Nat → σ → Finset Word → Nat → Option (Nat × Finset Word × σ)
  | 0, st, s, acc => some (acc, s, st)
  | n + 1, st, s, acc =>
    match step st with
    | .error _ => none
    | .ok pr => run_trials step n pr.2 s (if pr.1 ∈ s then acc + 1 else acc)

/-- The common skeleton of `case01`..`case04`: populate, run the trials,
report `{tries, collisions, double(collisions) / tries * 100}`. -/
def run_experiment {σ : Type} (step : σ → Except SampleError (Word × σ))
    (target tries pfuel : Nat) (st : σ) : Option ExperimentResult :=
  match populate step target pfuel st ∅ with
  | none => none
  | some pr =>
    match run_trials step tries pr.2 pr.1 0 with
    | none => none
    | some tr => some (tries, tr.1, (tr.1 : ℚ) / (tries : ℚ) * 100)

/-- Engine reuse (`case01`, `case03`): one engine stream drives every draw. -/
def reuse_step (db : WordDB) (opt : SampleNicknameOpt) (g : Rng) :
    Except SampleError (Word × Rng) := sample_nickname g db opt

/-- Engine recreation (`case02`, `case04`): a fresh, freshly seeded engine
per draw, modelled as a stream of engine streams. -/
def recreate_step (db : WordDB) (opt : SampleNicknameOpt) (E : Nat → Rng) :
    Except SampleError (Word × (Nat → Rng)) :=
  match sample_nickname (E 0) db opt with
  | .error e => .error e
  | .ok pr => .ok (pr.1, fun n => E (n + 1))

/-- `case01` (reused 32-bit engine; the engine width is invisible in the
stream abstraction).  `pfuel` is the model's fuel for the unbounded
population loop. -/
def case01 (db : WordDB) (pfuel : Nat) (g : Rng) : Option ExperimentResult :=
  run_experiment (reuse_step db SAMPLE_NICKNAME_OPT) NUM_INITIAL_NICKNAMES NUM_TRIES pfuel g

/-- `case02` (recreated 32-bit engine). -/
def case02 (db : WordDB) (pfuel : Nat) (E : Nat → Rng) : Option ExperimentResult :=
  run_experiment (recreate_step db SAMPLE_NICKNAME_OPT) NUM_INITIAL_NICKNAMES NUM_TRIES pfuel E

/-- `case03` (reused 64-bit engine; identical to `case01` under the stream
abstraction). -/
def case03 (db : WordDB) (pfuel : Nat) (g : Rng) : Option ExperimentResult :=
  run_experiment (reuse_step db SAMPLE_NICKNAME_OPT) NUM_INITIAL_NICKNAMES NUM_TRIES pfuel g

/-- `case04` (recreated 64-bit engine). -/
def case04 (db : WordDB) (pfuel : Nat) (E : Nat → Rng) : Option ExperimentResult :=
  run_experiment (recreate_step db SAMPLE_NICKNAME_OPT) NUM_INITIAL_NICKNAMES NUM_TRIES pfuel E

/-- Population loop invariant: a loop that exits with a result, started with
no more distinct entries than the target, holds exactly `target` distinct
entries — insertion grows the set by at most one per draw and the guard
stops at the first time the count reaches the target. -/
theorem populate_card {σ : Type} (step : σ → Except SampleError (Word × σ)) (target : Nat) :
    ∀ (fuel : Nat) (st : σ) (s s' : Finset Word) (st' : σ),
      populate step target fuel st s = some (s', st') → s.card ≤ target →
      s'.card = target := by
  intro fuel
  induction fuel with
  | zero =>
    intro st s s' st' h hc
    by_cases hlt : s.card < target
    · unfold populate at h
      rw [if_pos hlt] at h
      simp at h
    · unfold populate at h
      rw [if_neg hlt] at h
      simp only [Option.some.injEq] at h
      have hs : s = s' := congrArg Prod.fst h
      rw [← hs]
      omega
  | succ fuel ih =>
    intro st s s' st' h hc
    by_cases hlt : s.card < target
    · unfold populate at h
      rw [if_pos hlt] at h
      cases hstep : step st with
      | error e =>
        rw [hstep] at h
        simp at h
      | ok pr =>
        rw [hstep] at h
        refine ih pr.2 _ s' st' h ?_
        have := Finset.card_insert_le pr.1 s
        omega
    · unfold populate at h
      rw [if_neg hlt] at h
      simp only [Option.some.injEq] at h
      have hs : s = s' := congrArg Prod.fst h
      rw [← hs]
      omega

/-- Trial loop invariant: the set is returned unchanged and the collision
counter grows by at most one per draw. -/
theorem run_trials_spec {σ : Type} (step : σ → Except SampleError (Word × σ)) :
    ∀ (n : Nat) (st : σ) (s : Finset Word) (acc hits : Nat) (s' : Finset Word) (st' : σ),
      run_trials step n st s acc = some (hits, s', st') →
      s' = s ∧ hits ≤ acc + n := by
  intro n
  induction n with
  | zero =>
    intro st s acc hits s' st' h
    simp only [run_trials, Option.some.injEq, Prod.mk.injEq] at h
    obtain ⟨h1, h2, h3⟩ := h
    exact ⟨h2.symm, by omega⟩
  | succ n ih =>
    intro st s acc hits s' st' h
    simp only [run_trials] at h
    cases hstep : step st with
    | error e =>
      rw [hstep] at h
      simp at h
    | ok pr =>
      rw [hstep] at h
      have := ih pr.2 s (if pr.1 ∈ s then acc + 1 else acc) hits s' st' h
      refine ⟨this.1, ?_⟩
      have h2 := this.2
      by_cases hm : pr.1 ∈ s
      · rw [if_pos hm] at h2
        omega
      · rw [if_neg hm] at h2
        omega

/-- The reported tuple of `run_experiment`: first component is the trial
count, the collision count is at most the trial count, and the percentage
is the exact `100 * collisions / tries`. -/
theorem run_experiment_spec {σ : Type} (step : σ → Except SampleError (Word × σ))
    (target tries pfuel : Nat) (st : σ) (t c : Nat) (p : ℚ)
    (h : run_experiment step target tries pfuel st = some (t, c, p)) :
    t = tries ∧ c ≤ tries ∧ p = 100 * c / tries := by
  unfold run_experiment at h
  cases hpop : populate step target pfuel st ∅ with
  | none =>
    rw [hpop] at h
    simp at h
  | some pr =>
    rw [hpop] at h
    dsimp only at h
    cases htr : run_trials step tries pr.2 pr.1 0 with
    | none =>
      rw [htr] at h
      simp at h
    | some tr =>
      rw [htr] at h
      simp only [Option.some.injEq, Prod.mk.injEq] at h
      obtain ⟨h1, h2, h3⟩ := h
      have hsp := run_trials_spec step tries pr.2 pr.1 0 tr.1 tr.2.1 tr.2.2 (by rw [htr])
      refine ⟨h1.symm, by omega, ?_⟩
      rw [← h3, ← h2]
      ring

/-- C5: whenever the population phase (of any experiment variant,
abstracted by its draw capability `step`) terminates with a result from an
initial set within the target, the set holds exactly `target` distinct
nicknames — duplicate draws are absorbed by set semantics and the count
never overshoots; the system's target is `NUM_INITIAL_NICKNAMES =
10,000,000`. -/
theorem claim_C5 {σ : Type} (step : σ → Except SampleError (Word × σ))
    (target fuel : Nat) (st st' : σ) (s s' : Finset Word)
    (h : populate step target fuel st s = some (s', st')) (h0 : s.card ≤ target) :
    s'.card = target ∧ NUM_INITIAL_NICKNAMES = 10000000 :=
  ⟨populate_card step target fuel st s s' st' h h0, rfl⟩

/-- C5 witness: a one-draw population run reaching target 1. -/
theorem claim_C5_witness :
    (insert ([97] : Word) ∅ : Finset Word).card = 1 ∧
      NUM_INITIAL_NICKNAMES = 10000000 :=
  claim_C5 (fun _ : Unit => .ok ([97], ())) 1 1 () () ∅ (insert [97] ∅)
    (by decide) (by decide)

/-- C6: the reported result of any experiment variant is
`{tries, collision_count, 100 * collision_count / tries}` with
`collision_count ≤ tries`, so the percentage lies in `[0, 100]`; the
system's trial count is `NUM_TRIES = 50,000,000`. -/
theorem claim_C6 {σ : Type} (step : σ → Except SampleError (Word × σ))
    (target tries pfuel : Nat) (st : σ) (t c : Nat) (p : ℚ)
    (h : run_experiment step target tries pfuel st = some (t, c, p))
    (htries : 0 < tries) :
    t = tries ∧ c ≤ tries ∧ p = 100 * c / tries ∧
      0 ≤ p ∧ p ≤ 100 ∧ NUM_TRIES = 50000000 := by
  obtain ⟨h1, h2, h3⟩ := run_experiment_spec step target tries pfuel st t c p h
  have htq : (0 : ℚ) < tries := by exact_mod_cast htries
  have hcq : (c : ℚ) ≤ tries := by exact_mod_cast h2
  have hc0 : (0 : ℚ) ≤ c := by positivity
  refine ⟨h1, h2, h3, ?_, ?_, rfl⟩
  · rw [h3]
    positivity
  · rw [h3, div_le_iff₀ htq]
    nlinarith

/-- C6 witness: a zero-target, one-trial run reports one trial, zero
collisions, and percentage `0 / 1 * 100`. -/
theorem claim_C6_witness :
    (1 : Nat) = 1 ∧ (0 : Nat) ≤ 1 ∧
      (((0 : Nat) : ℚ) / ((1 : Nat) : ℚ) * 100 = 100 * ((0 : Nat) : ℚ) / ((1 : Nat) : ℚ)) ∧
      0 ≤ ((0 : Nat) : ℚ) / ((1 : Nat) : ℚ) * 100 ∧
      ((0 : Nat) : ℚ) / ((1 : Nat) : ℚ) * 100 ≤ 100 ∧ NUM_TRIES = 50000000 :=
  claim_C6 (fun _ : Unit => .ok ([97], ())) 0 1 0 () 1 0
    (((0 : Nat) : ℚ) / ((1 : Nat) : ℚ) * 100) rfl (by decide)

/-- C7: the trial phase never modifies the nickname set — every draw is a
pure membership test — so the set after the trials is exactly the set the
population phase produced. -/
theorem claim_C7 {σ : Type} (step : σ → Except SampleError (Word × σ))
    (n : Nat) (st : σ) (s : Finset Word) (acc hits : Nat)
    (s' : Finset Word) (st' : σ)
    (h : run_trials step n st s acc = some (hits, s', st')) :
    s' = s :=
  (run_trials_spec step n st s acc hits s' st' h).1

/-- C7 witness: one trial draw against the one-element set leaves it
unchanged. -/
theorem claim_C7_witness :
    (insert ([99] : Word) ∅ : Finset Word) = insert ([99] : Word) ∅ :=
  claim_C7 (fun _ : Unit => .ok ([97], ())) 1 () (insert [99] ∅) 0 0
    (insert [99] ∅) () (by decide)
